import Mathlib

/-! The module jest.config.js

A verification development for the test-runner configuration module
`jest.config.js`.  The module body is a single assignment
`module.exports = { ... }` whose right-hand side is an object literal built
from boolean literals, string literals and array literals of string literals.

The object literal is embedded as a value of `JsValue`, keeping the property
names, their order and every literal of the source.  The exported object is
an ordinary heap object (`JsObject`); how the pattern strings are read by the
consuming tool is modelled in the sections on path patterns and globs.
-/

namespace JestConfig

/-- The JavaScript values an object literal of this module can denote. -/
inductive JsValue where
  | bool (b : Bool)
  | str (s : String)
  | arr (items : List JsValue)
  | obj (props : List (String × JsValue))

/-- The documented field types of the configuration record; `other` is any
value that is none of them (a nested record, a mixed or nested array). -/
inductive Kind where
  | boolean
  | string
  | stringSeq
  | other
  deriving DecidableEq, Repr

/-- Whether a value is a string. -/
def JsValue.isStr : JsValue → Bool
  | .str _ => true
  | _ => false

/-- The type of a field value: boolean, string, ordered sequence of strings,
or something else. -/
def JsValue.kind : JsValue → Kind
  | .bool _ => .boolean
  | .str _ => .string
  | .arr items => if items.all JsValue.isStr then .stringSeq else .other
  | .obj _ => .other

/-- The own properties of an object value, in insertion order. -/
def JsValue.props : JsValue → List (String × JsValue)
  | .obj ps => ps
  | _ => []

/-- Property read `o[key]`: the value of the own property, if present. -/
def JsValue.get? (o : JsValue) (key : String) : Option JsValue :=
  (o.props.find? (fun p => p.1 == key)).map Prod.snd

/-- The strings held by an array value (non-string items are skipped). -/
def JsValue.strings : JsValue → List String
  | .arr items => items.filterMap (fun v => match v with | .str s => some s | _ => none)
  | _ => []

/-- The string sequence stored under `key`, empty when absent. -/
def JsValue.getStrings (o : JsValue) (key : String) : List String :=
  match o.get? key with
  | some v => v.strings
  | none => []

/-- The object literal on the right-hand side of `module.exports = ...`
(jest.config.js, lines 2-34). -/
def config : JsValue :=
  .obj [
    ("clearMocks", .bool true),
    ("coverageDirectory", .str "coverage"),
    ("testPathIgnorePatterns", .arr [
      .str "/node_modules/",
      .str "/venv/",
      .str "/__pycache__/",
      .str "/generated_code/"
    ]),
    ("modulePathIgnorePatterns", .arr [
      .str "<rootDir>/venv/",
      .str "<rootDir>/src/venv/"
    ]),
    ("testMatch", .arr [
      .str "**/__tests__/**/*.[jt]s?(x)",
      .str "**/?(*.)+(spec|test).[tj]s?(x)"
    ]),
    ("verbose", .bool true),
    ("testEnvironment", .str "jsdom")
  ]

/-- The ambient inputs a CommonJS module body can consult when it is
evaluated: environment variables, command-line arguments and the two path
arguments of the module wrapper. -/
structure Env where
  vars : List (String × String)
  argv : List String
  filename : String
  dirname : String

/-- An object on the heap: its content, and whether `Object.freeze` has been
applied to it. -/
structure JsObject where
  value : JsValue
  frozen : Bool

/-- Evaluating an object literal allocates an ordinary object: extensible,
with every property writable.  Nothing freezes it. -/
def JsObject.ofLiteral (v : JsValue) : JsObject :=
  { value := v, frozen := false }

/-- The effect of `Object.freeze`. -/
def JsObject.freeze (o : JsObject) : JsObject :=
  { o with frozen := true }

/-- Write a property into a property list: an existing key keeps its place
and takes the new value, a new key is appended. -/
def setProp : List (String × JsValue) → String → JsValue → List (String × JsValue)
  | [], key, v => [(key, v)]
  | (k, w) :: ps, key, v =>
    if k == key then (k, v) :: ps else (k, w) :: setProp ps key v

/-- Write a property of a value; a write to a non-object is dropped. -/
def JsValue.set : JsValue → String → JsValue → JsValue
  | .obj ps, key, v => .obj (setProp ps key v)
  | other, _, _ => other

/-- The assignment `o[key] = v` as any holder of the object can perform it;
on a frozen object the write is dropped. -/
def JsObject.assign (o : JsObject) (key : String) (v : JsValue) : JsObject :=
  if o.frozen then o else { o with value := o.value.set key v }

/-- An object is immutable when no property assignment changes its content. -/
def JsObject.Immutable (o : JsObject) : Prop :=
  ∀ (key : String) (v : JsValue), (o.assign key v).value = o.value

/-- The `module` object handed to a CommonJS module body. -/
structure Module where
  exports : JsObject

/-- The module body: the single statement `module.exports = { ... }`.  It
reads nothing from the environment and applies no `Object.freeze`. -/
def moduleBody (_env : Env) (m : Module) : Module :=
  { m with exports := JsObject.ofLiteral config }

/-- Loading the module: run the body on a fresh `module` whose `exports` is
the empty object, and return `module.exports`. -/
def load (env : Env) : JsObject :=
  (moduleBody env { exports := JsObject.ofLiteral (.obj []) }).exports

/-- An environment with nothing set. -/
def emptyEnv : Env :=
  { vars := [], argv := [], filename := "", dirname := "" }

/-- The names and types of the fields of a record, in order. -/
def JsValue.shape (o : JsValue) : List (String × Kind) :=
  o.props.map (fun p => (p.1, p.2.kind))

/-- How many fields of a record have the given type. -/
def JsValue.countKind (o : JsValue) (k : Kind) : Nat :=
  (o.shape.map Prod.snd).count k

/-! ## Path patterns

The two exclusion lists are read by the consuming tool as regular
expressions tested against a path, after `<rootDir>` has been replaced by
the resolved root directory.  Paths use `/` as separator.
-/

/-- The entries of `testPathIgnorePatterns`. -/
def testPathIgnorePatterns : List String :=
  config.getStrings "testPathIgnorePatterns"

/-- The entries of `modulePathIgnorePatterns`. -/
def modulePathIgnorePatterns : List String :=
  config.getStrings "modulePathIgnorePatterns"

/-- The entries of `testMatch`. -/
def testMatch : List String :=
  config.getStrings "testMatch"

/-- The placeholder that stands for the project root in a pattern. -/
def rootDirToken : List Char := "<rootDir>".data

/-- A pattern with its leading `<rootDir>` replaced by the root directory. -/
def replaceRootDir (root pat : List Char) : List Char :=
  if rootDirToken.isPrefixOf pat then root ++ pat.drop rootDirToken.length else pat

/-- The replacement text of `String.prototype.replace` for one match: in the
replacement string `$$` stands for `$`, `$&` for the matched text, `$` followed
by a backtick for the text before the match and `$` followed by an apostrophe
for the text after it.  The searched pattern has no capture group, so any
other `$` stays as written. -/
def expandReplacement (matched before after : List Char) : List Char → List Char
  | [] => []
  | [c] => [c]
  | c :: d :: r =>
    if c = '$' then
      if d = '$' then '$' :: expandReplacement matched before after r
      else if d = '&' then matched ++ expandReplacement matched before after r
      else if d = Char.ofNat 96 then before ++ expandReplacement matched before after r
      else if d = Char.ofNat 39 then after ++ expandReplacement matched before after r
      else c :: expandReplacement matched before after (d :: r)
    else c :: expandReplacement matched before after (d :: r)

/-- Scan of `whole` for the occurrences of `<rootDir>`: `pos` is the index of
the next character, `skip` the number of characters of a match still to be
passed over. -/
def substituteAux (root whole : List Char) : Nat → Nat → List Char → List Char
  | _, _, [] => []
  | pos, skip + 1, _ :: rest => substituteAux root whole (pos + 1) skip rest
  | pos, 0, c :: rest =>
    if rootDirToken.isPrefixOf (c :: rest) then
      expandReplacement rootDirToken (whole.take pos)
          (whole.drop (pos + rootDirToken.length)) root ++
        substituteAux root whole (pos + 1) (rootDirToken.length - 1) rest
    else c :: substituteAux root whole (pos + 1) 0 rest

/-- The pattern the consuming tool tests: every occurrence of `<rootDir>` in
the entry replaced by the resolved root directory, as
`entry.replace(/<rootDir>/g, root)` does. -/
def substituteRootDir (root pat : List Char) : List Char :=
  substituteAux root pat 0 0 pat

/-- Literal containment: `pat` occurs in `path` as a contiguous substring. -/
def containsSub (path pat : List Char) : Prop := pat <:+: path

instance (path pat : List Char) : Decidable (containsSub path pat) :=
  inferInstanceAs (Decidable (pat <:+: path))

/-- The syntax characters of a regular expression:
`^ $ \ . * + ? ( ) [ ] { } |`. -/
def syntaxChars : List Char :=
  ['^', '$', '\\', '.', '*', '+', '?', '(', ')', '[', ']', '\x7b', '\x7d', '|']

/-- Whether a character is a regular-expression syntax character. -/
def isSyntaxChar (c : Char) : Bool := syntaxChars.contains c

/-- A pattern without any regular-expression syntax character. -/
def metaFree (pat : List Char) : Bool := pat.all (fun c => !isSyntaxChar c)

/-- One-character atoms of the regular-expression fragment. -/
inductive Atom where
  | chr (c : Char)
  | any
  deriving DecidableEq, Repr

/-- Quantifiers of the regular-expression fragment. -/
inductive Quant where
  | one
  | star
  | plus
  | opt
  deriving DecidableEq, Repr

/-- Terms of the regular-expression fragment: the two anchors and a
quantified atom. -/
inductive Term where
  | bol
  | eol
  | rep (a : Atom) (q : Quant)
  deriving DecidableEq, Repr

/-- Line terminators, which `.` does not match. -/
def isLineTerminator (c : Char) : Bool :=
  c == '\n' || c == '\r' || c == Char.ofNat 0x2028 || c == Char.ofNat 0x2029

/-- Whether an atom accepts a character. -/
def Atom.accepts : Atom → Char → Bool
  | .chr a, c => a == c
  | .any, c => !isLineTerminator c

/-- The quantifier a character denotes, if any. -/
def quantOf (c : Char) : Option Quant :=
  if c = '*' then some .star
  else if c = '+' then some .plus
  else if c = '?' then some .opt
  else none

/-- The atom a character denotes: `.` is the wildcard, any other syntax
character is not an atom of the fragment, every other character is itself. -/
def atomOf (c : Char) : Option Atom :=
  if c = '.' then some .any
  else if isSyntaxChar c then none
  else some (.chr c)

/-- Parse a pattern of the fragment.  Groups, alternation, classes, braces
and escapes are outside the fragment and give `none`, as does a quantifier
with nothing to repeat. -/
def parseRegex : List Char → Option (List Term)
  | [] => some []
  | [c] =>
    if c = '^' then some [.bol]
    else if c = '$' then some [.eol]
    else (atomOf c).map (fun a => [.rep a .one])
  | c :: q :: rest =>
    if c = '^' then (parseRegex (q :: rest)).map (fun ts => .bol :: ts)
    else if c = '$' then (parseRegex (q :: rest)).map (fun ts => .eol :: ts)
    else
      match atomOf c with
      | none => none
      | some a =>
        match quantOf q with
        | some k => (parseRegex rest).map (fun ts => .rep a k :: ts)
        | none => (parseRegex (q :: rest)).map (fun ts => .rep a .one :: ts)

/-- Greedy-or-not is irrelevant for a yes/no test: `a*` followed by the
continuation `k` matches when `k` matches after some number of accepted
characters. -/
def matchStar (a : Atom) (k : Bool → List Char → Bool) : Bool → List Char → Bool
  | atStart, [] => k atStart []
  | atStart, c :: t => k atStart (c :: t) || (a.accepts c && matchStar a k false t)

/-- Whether the terms match a prefix of the text; `atStart` tells whether the
text begins at the start of the input. -/
def matchTerms : List Term → Bool → List Char → Bool
  | [], _, _ => true
  | .bol :: ts, atStart, text => atStart && matchTerms ts atStart text
  | .eol :: ts, atStart, text => text.isEmpty && matchTerms ts atStart text
  | .rep a .one :: ts, _, text =>
    match text with
    | [] => false
    | c :: t => a.accepts c && matchTerms ts false t
  | .rep a .opt :: ts, atStart, text =>
    matchTerms ts atStart text ||
      match text with
      | [] => false
      | c :: t => a.accepts c && matchTerms ts false t
  | .rep a .star :: ts, atStart, text => matchStar a (matchTerms ts) atStart text
  | .rep a .plus :: ts, _, text =>
    match text with
    | [] => false
    | c :: t => a.accepts c && matchStar a (matchTerms ts) false t

/-- Unanchored search: the terms match at some position of the text. -/
def searchFrom (ts : List Term) : Bool → List Char → Bool
  | atStart, [] => matchTerms ts atStart []
  | atStart, c :: t => matchTerms ts atStart (c :: t) || searchFrom ts false t

/-- The test `new RegExp(pat).test(path)` on the fragment; `none` when the
pattern is outside the fragment. -/
def regexTest (pat path : List Char) : Option Bool :=
  (parseRegex pat).map (fun ts => searchFrom ts true path)

/-- Whether a path is skipped in module resolution under the given root:
some `modulePathIgnorePatterns` entry, after substitution of the root,
matches the path. -/
def moduleIgnored (root path : List Char) : Bool :=
  modulePathIgnorePatterns.any
    (fun e => regexTest (substituteRootDir root e.data) path == some true)

/-- What the claim says is skipped: the paths that contain `root/venv/` or
`root/src/venv/`. -/
def underVenv (root path : List Char) : Prop :=
  containsSub path (root ++ "/venv/".data) ∨ containsSub path (root ++ "/src/venv/".data)

instance (root path : List Char) : Decidable (underVenv root path) :=
  inferInstanceAs (Decidable (_ ∨ _))

/-! ## Glob extension suffixes

The part of a `testMatch` glob after its last `.` is built from literal
characters, a bracket class `[..]` (one character out of the listed ones) and
the extended group `?(..)` (the enclosed literal, zero or one time).
-/

/-- Tokens of an extension suffix. -/
inductive GlobTok where
  | lit (c : Char)
  | cls (cs : List Char)
  | opt (cs : List Char)
  deriving DecidableEq, Repr

/-- Scanner state: at top level, inside `[..]`, or inside `?(..)`. -/
inductive ScanMode where
  | top
  | inClass (acc : List Char)
  | inOpt (acc : List Char)

/-- Characters with a glob meaning of their own. -/
def globSpecial : List Char :=
  ['*', '?', '+', '@', '!', '(', ')', '[', ']', '\x7b', '\x7d', '|', '\\', '^', '-']

/-- Scan an extension suffix into tokens; `none` for syntax outside the three
constructs. -/
def scanGlob : ScanMode → List Char → Option (List GlobTok)
  | .top, [] => some []
  | .top, [c] =>
    if globSpecial.contains c then none else some [.lit c]
  | .top, c :: d :: r =>
    if c = '[' then scanGlob (.inClass []) (d :: r)
    else if c = '?' ∧ d = '(' then scanGlob (.inOpt []) r
    else if globSpecial.contains c then none
    else (scanGlob .top (d :: r)).map (fun ts => .lit c :: ts)
  | .inClass _, [] => none
  | .inClass acc, c :: r =>
    if c = ']' then (scanGlob .top r).map (fun ts => .cls acc.reverse :: ts)
    else if globSpecial.contains c then none
    else scanGlob (.inClass (c :: acc)) r
  | .inOpt _, [] => none
  | .inOpt acc, c :: r =>
    if c = ')' then (scanGlob .top r).map (fun ts => .opt acc.reverse :: ts)
    else if globSpecial.contains c then none
    else scanGlob (.inOpt (c :: acc)) r

/-- Whether the whole string is matched by the tokens. -/
def globMatch : List GlobTok → List Char → Bool
  | [], s => s.isEmpty
  | .lit c :: ts, s =>
    match s with
    | [] => false
    | d :: r => c == d && globMatch ts r
  | .cls cs :: ts, s =>
    match s with
    | [] => false
    | d :: r => cs.contains d && globMatch ts r
  | .opt g :: ts, s =>
    globMatch ts s || (g.isPrefixOf s && globMatch ts (s.drop g.length))

/-- Whether a string is matched by an extension suffix; `none` when the
suffix uses syntax outside the three constructs. -/
def globTest (pat s : List Char) : Option Bool :=
  (scanGlob .top pat).map (fun ts => globMatch ts s)

/-- The strings denoted by a token sequence. -/
def globLang : List GlobTok → List (List Char)
  | [] => [[]]
  | .lit c :: ts => (globLang ts).map (fun s => c :: s)
  | .cls cs :: ts => cs.flatMap (fun c => (globLang ts).map (fun s => c :: s))
  | .opt g :: ts => globLang ts ++ (globLang ts).map (fun s => g ++ s)

/-- The extension part of a glob: from its last `.` to the end. -/
def extPart (p : List Char) : List Char :=
  '.' :: (p.reverse.takeWhile (fun c => c != '.')).reverse

/-- The terms of a pattern read character by character as literals. -/
def literalTerms (pat : List Char) : List Term :=
  pat.map (fun c => Term.rep (.chr c) .one)

/-- The four extensions `.js`, `.jsx`, `.ts`, `.tsx`. -/
def jsExtensions : List String := [".js", ".jsx", ".ts", ".tsx"]

/-! ## Test-file globs

The `testMatch` entries are globs matched against a whole path.  They are
read with `**/` as any sequence of directories, `*` as any run of characters
other than the separator, `[..]` as a one-character class, `?(..)` as an
optional group and `+(..|..)` as one or more repetitions of its alternatives.
A glob is compiled to a regular expression over character predicates, and
matched by derivatives.
-/

/-- Regular expressions whose atoms are character predicates. -/
inductive Rx where
  | none
  | eps
  | sym (p : Char → Bool)
  | alt (a b : Rx)
  | seq (a b : Rx)
  | star (a : Rx)

/-- Whether the expression matches the empty string. -/
def Rx.nullable : Rx → Bool
  | .none => false
  | .eps => true
  | .sym _ => false
  | .alt a b => a.nullable || b.nullable
  | .seq a b => a.nullable && b.nullable
  | .star _ => true

/-- The derivative with respect to a character: what remains to be matched
after that character has been read. -/
def Rx.deriv : Rx → Char → Rx
  | .none, _ => .none
  | .eps, _ => .none
  | .sym p, c => if p c then .eps else .none
  | .alt a b, c => .alt (a.deriv c) (b.deriv c)
  | .seq a b, c =>
    if a.nullable then .alt (.seq (a.deriv c) b) (b.deriv c) else .seq (a.deriv c) b
  | .star a, c => .seq (a.deriv c) (.star a)

/-- Whether the expression matches the whole string. -/
def Rx.accepts : Rx → List Char → Bool
  | r, [] => r.nullable
  | r, c :: cs => (r.deriv c).accepts cs

/-- The set of strings an expression denotes. -/
def Rx.lang : Rx → Set (List Char)
  | .none => ∅
  | .eps => {[]}
  | .sym p => {w | ∃ c, p c = true ∧ w = [c]}
  | .alt a b => a.lang ∪ b.lang
  | .seq a b => {w | ∃ u v, u ∈ a.lang ∧ v ∈ b.lang ∧ w = u ++ v}
  | .star a => {w | ∃ L : List (List Char), (∀ u ∈ L, u ∈ a.lang) ∧ w = L.flatten}

/-- Flat glob elements: a literal character, a bracket class, `?` (one
character that is not a separator) and `*` (any run of characters that are
not separators). -/
inductive Piece where
  | lit (c : Char)
  | cls (cs : List Char)
  | one
  | star
  deriving DecidableEq, Repr

/-- The kinds of extended group: `?(..)`, `+(..)`, `*(..)` and `@(..)`. -/
inductive GroupKind where
  | zeroOrOne
  | oneOrMore
  | zeroOrMore
  | exactlyOne
  deriving DecidableEq, Repr

/-- Elements of a glob: a flat element, the directory wildcard `**/`, and an
extended group with its alternatives. -/
inductive Item where
  | piece (p : Piece)
  | globstar
  | group (k : GroupKind) (alts : List (List Piece))
  deriving DecidableEq, Repr

/-- An extended group being read: its kind, the alternatives already closed
and the current alternative, both in reverse order. -/
structure GroupAcc where
  kind : GroupKind
  done : List (List Piece)
  cur : List Piece

/-- Parser state: at top level, inside a group, or inside a bracket class
(itself at top level or inside a group). -/
inductive PMode where
  | top
  | grp (g : GroupAcc)
  | cls (acc : List Char) (g : Option GroupAcc)

/-- The group kind a character announces when a `(` follows it. -/
def groupKindOf (c : Char) : Option GroupKind :=
  if c = '?' then some .zeroOrOne
  else if c = '+' then some .oneOrMore
  else if c = '*' then some .zeroOrMore
  else if c = '@' then some .exactlyOne
  else none

/-- Characters the parser does not accept as literals. -/
def globReserved : List Char :=
  ['(', ')', '[', ']', '\x7b', '\x7d', '|', '\\', '!']

/-- Characters not accepted inside a bracket class: ranges, negation,
nesting and escapes are outside the fragment. -/
def classReserved : List Char :=
  ['[', '\\', '-', '!', '^']

/-- The flat element a character denotes outside a class. -/
def pieceOf (c : Char) : Option Piece :=
  if c = '*' then some .star
  else if c = '?' then some .one
  else if globReserved.contains c then none
  else some (.lit c)

/-- Parse a glob.  Negation, braces, escapes, class ranges, nested groups and
a `**` that is not followed by `/` are outside the fragment and give `none`. -/
def parseGlob : PMode → List Char → Option (List Item)
  | .top, [] => some []
  | .top, c :: rest =>
    if c = '[' then parseGlob (.cls [] none) rest
    else
      match rest with
      | [] => (pieceOf c).map (fun p => [.piece p])
      | d :: rest₁ =>
        if d = '(' then
          match groupKindOf c with
          | some k => parseGlob (.grp { kind := k, done := [], cur := [] }) rest₁
          | none => none
        else if c = '*' ∧ d = '*' then
          match rest₁ with
          | [] => none
          | e :: rest₂ =>
            if e = '/' then (parseGlob .top rest₂).map (fun ts => .globstar :: ts) else none
        else
          match pieceOf c with
          | some p => (parseGlob .top (d :: rest₁)).map (fun ts => .piece p :: ts)
          | none => none
  | .grp _, [] => none
  | .grp g, c :: rest =>
    if c = ')' then
      (parseGlob .top rest).map
        (fun ts => .group g.kind (g.cur.reverse :: g.done).reverse :: ts)
    else if c = '|' then
      parseGlob (.grp { g with done := g.cur.reverse :: g.done, cur := [] }) rest
    else if c = '[' then parseGlob (.cls [] (some g)) rest
    else
      match rest with
      | [] => none
      | d :: rest₁ =>
        if d = '(' ∨ (c = '*' ∧ d = '*') then none
        else
          match pieceOf c with
          | some p => parseGlob (.grp { g with cur := p :: g.cur }) (d :: rest₁)
          | none => none
  | .cls _ _, [] => none
  | .cls acc g, c :: rest =>
    if c = ']' then
      match g with
      | none => (parseGlob .top rest).map (fun ts => .piece (.cls acc.reverse) :: ts)
      | some g => parseGlob (.grp { g with cur := .cls acc.reverse :: g.cur }) rest
    else if classReserved.contains c then none
    else parseGlob (.cls (c :: acc) g) rest

/-- A character that is not the path separator. -/
def nonSep (c : Char) : Bool := c != '/'

/-- The expression of a flat element. -/
def Piece.rx : Piece → Rx
  | .lit c => .sym (fun d => d == c)
  | .cls cs => .sym (fun d => cs.contains d)
  | .one => .sym nonSep
  | .star => .star (.sym nonSep)

/-- The expression of a sequence of flat elements. -/
def piecesRx : List Piece → Rx
  | [] => .eps
  | p :: ps => .seq p.rx (piecesRx ps)

/-- The expression of the alternatives of a group. -/
def altsRx : List (List Piece) → Rx
  | [] => .none
  | a :: as => .alt (piecesRx a) (altsRx as)

/-- The expression of a glob element.  `**/` stands for any sequence of
directories: nothing, or anything that ends with a separator. -/
def Item.rx : Item → Rx
  | .piece p => p.rx
  | .globstar => .alt .eps (.seq (.star (.sym (fun _ => true))) (.sym (fun d => d == '/')))
  | .group .zeroOrOne alts => .alt .eps (altsRx alts)
  | .group .oneOrMore alts => .seq (altsRx alts) (.star (altsRx alts))
  | .group .zeroOrMore alts => .star (altsRx alts)
  | .group .exactlyOne alts => altsRx alts

/-- The expression of a parsed glob. -/
def itemsRx : List Item → Rx
  | [] => .eps
  | t :: ts => .seq t.rx (itemsRx ts)

/-- Whether a glob matches a whole path; `none` when the glob is outside the
fragment. -/
def globSelects (pat path : List Char) : Option Bool :=
  (parseGlob .top pat).map (fun ts => (itemsRx ts).accepts path)

/-- A sequence of directories: nothing, or a string that ends with a
separator. -/
def DirPrefix (d : List Char) : Prop := d = [] ∨ ∃ x, d = x ++ ['/']

/-- A string without separator. -/
def NoSep (n : List Char) : Prop := ∀ c ∈ n, c ≠ '/'

/-- One of the four extensions. -/
def JsExt (e : List Char) : Prop := e ∈ jsExtensions.map String.data

/-- A file below a directory named `__tests__`, with one of the four
extensions. -/
def UnderTestsDir (p : List Char) : Prop :=
  ∃ a b n e, DirPrefix a ∧ DirPrefix b ∧ NoSep n ∧ JsExt e ∧
    p = a ++ ("__tests__/".data ++ (b ++ (n ++ e)))

/-- One or more repetitions of `spec` and `test`. -/
def SpecTestWord (w : List Char) : Prop :=
  ∃ ws : List (List Char), ws ≠ [] ∧ (∀ x ∈ ws, x = "spec".data ∨ x = "test".data) ∧
    w = ws.flatten

/-- Nothing, or a separator-free string followed by a dot. -/
def OptDotPrefix (u : List Char) : Prop := u = [] ∨ ∃ n, NoSep n ∧ u = n ++ ['.']

/-- A file whose name is an optional dot-terminated prefix, then one or more
repetitions of `spec` and `test`, then one of the four extensions. -/
def SpecOrTestName (p : List Char) : Prop :=
  ∃ a u w e, DirPrefix a ∧ OptDotPrefix u ∧ SpecTestWord w ∧ JsExt e ∧
    p = a ++ (u ++ (w ++ e))

/-- The literal elements of a string. -/
def litItems (s : List Char) : List Item := s.map (fun c => Item.piece (.lit c))

/-- Whether a file is identified as a test file: some `testMatch` glob
matches its path. -/
def isTestFile (path : List Char) : Bool :=
  testMatch.any (fun g => globSelects g.data path == some true)

/-- The files the wording names: those under a `__tests__` directory and
those named `*.spec` or `*.test`, with one of the four extensions. -/
def wordingSelects (path : List Char) : Bool :=
  jsExtensions.any (fun e =>
    (e.data.isSuffixOf path &&
      ("__tests__/".data.isPrefixOf path || decide (containsSub path "/__tests__/".data))) ||
    (".spec".data ++ e.data).isSuffixOf path ||
    (".test".data ++ e.data).isSuffixOf path)

/-- The shape of the record as the system overview words it: five fields,
one of them a boolean flag, two of them strings (a directory path and an
environment name) and two of them ordered sequences of strings. -/
def FiveFlatFields (o : JsValue) : Prop :=
  o.props.length = 5 ∧ o.countKind .boolean = 1 ∧ o.countKind .string = 2 ∧
    o.countKind .stringSeq = 2

instance (o : JsValue) : Decidable (FiveFlatFields o) :=
  inferInstanceAs (Decidable (_ ∧ _))

/-! ## The configuration record -/

/-- C1: the exported record holds `clearMocks = true`,
`coverageDirectory = "coverage"`, `verbose = true` and
`testEnvironment = "jsdom"`. -/
theorem config_scalar_values :
    config.get? "clearMocks" = some (.bool true) ∧
    config.get? "coverageDirectory" = some (.str "coverage") ∧
    config.get? "verbose" = some (.bool true) ∧
    config.get? "testEnvironment" = some (.str "jsdom") := by
  refine ⟨?_, ?_, ?_, ?_⟩ <;> rfl

/-- C2: the exported record has exactly the seven documented fields, each of
its documented type: `clearMocks` and `verbose` booleans, `coverageDirectory`
and `testEnvironment` strings, and `testPathIgnorePatterns`,
`modulePathIgnorePatterns` and `testMatch` ordered sequences of strings. -/
theorem config_shape :
    config.shape =
      [("clearMocks", .boolean),
       ("coverageDirectory", .string),
       ("testPathIgnorePatterns", .stringSeq),
       ("modulePathIgnorePatterns", .stringSeq),
       ("testMatch", .stringSeq),
       ("verbose", .boolean),
       ("testEnvironment", .string)] := by
  rfl

/-- C3, as stated, fails: the exported record is not a record of five fields
with one boolean, two strings and two sequences. -/
theorem config_not_five_fields : ¬ FiveFlatFields config := by
  decide

/-- C3, amended: the exported record has seven flat fields, two boolean
flags, two strings (the coverage directory and the environment name) and
three ordered sequences of strings, and no field of any other type. -/
theorem config_seven_flat_fields :
    config.props.length = 7 ∧
    config.countKind .boolean = 2 ∧
    config.countKind .string = 2 ∧
    config.countKind .stringSeq = 3 ∧
    config.countKind .other = 0 ∧
    (config.get? "coverageDirectory").map JsValue.kind = some .string ∧
    (config.get? "testEnvironment").map JsValue.kind = some .string := by
  refine ⟨?_, ?_, ?_, ?_, ?_, ?_, ?_⟩ <;> rfl

theorem get?_setProp_same (ps : List (String × JsValue)) (key : String) (v : JsValue) :
    ((setProp ps key v).find? (fun p => p.1 == key)).map Prod.snd = some v := by
  induction ps with
  | nil => simp [setProp]
  | cons p ps ih =>
    obtain ⟨k, w⟩ := p
    by_cases h : k = key
    · simp [setProp, h]
    · simp [setProp, h, ih]

theorem assign_frozen (o : JsObject) (key : String) (v : JsValue) :
    (o.freeze.assign key v) = o.freeze := by
  simp [JsObject.assign, JsObject.freeze]

/-- C7, as stated, fails: the loaded record is not immutable.  The
assignment `clearMocks = false` on the loaded record changes it. -/
theorem loaded_record_not_immutable : ¬ (load emptyEnv).Immutable := by
  intro h
  have h1 := congrArg (fun v => v.get? "clearMocks") (h "clearMocks" (.bool false))
  have h2 : ((load emptyEnv).assign "clearMocks" (.bool false)).value.get? "clearMocks" =
      some (.bool false) := rfl
  have h3 : (load emptyEnv).value.get? "clearMocks" = some (.bool true) := rfl
  simp only [h2, h3] at h1
  simp at h1

/-- C7, amended: loading the module yields the same record whatever the
environment, namely the object literal of the source as an ordinary unfrozen
object; the module body writes `module.exports` and nothing else; and a
property assignment on the loaded record is observed by the next read. -/
theorem load_constant_unfrozen :
    (∀ e₁ e₂ : Env, load e₁ = load e₂) ∧
    (∀ e : Env, (load e).value = config ∧ (load e).frozen = false) ∧
    (∀ (e : Env) (m : Module), (moduleBody e m).exports = JsObject.ofLiteral config) ∧
    (∀ (e : Env) (key : String) (v : JsValue),
      ((load e).assign key v).value.get? key = some v) := by
  refine ⟨fun _ _ => rfl, fun _ => ⟨rfl, rfl⟩, fun _ _ => rfl, ?_⟩
  intro e key v
  exact get?_setProp_same _ key v

/-! ## Exclusion patterns -/

theorem replaceRootDir_venv (r : List Char) :
    replaceRootDir r "<rootDir>/venv/".data = r ++ "/venv/".data := by
  have h : rootDirToken.isPrefixOf "<rootDir>/venv/".data = true := by decide
  simp only [replaceRootDir, h, if_true]
  rfl

theorem replaceRootDir_src_venv (r : List Char) :
    replaceRootDir r "<rootDir>/src/venv/".data = r ++ "/src/venv/".data := by
  have h : rootDirToken.isPrefixOf "<rootDir>/src/venv/".data = true := by decide
  simp only [replaceRootDir, h, if_true]
  rfl

/-- C8: a path that contains a `modulePathIgnorePatterns` entry, with
`<rootDir>` replaced by any root directory, contains the
`testPathIgnorePatterns` entry `/venv/`. -/
theorem module_ignore_implies_test_ignore (r p : String)
    (h : ∃ m ∈ modulePathIgnorePatterns,
      containsSub p.data (replaceRootDir r.data m.data)) :
    "/venv/" ∈ testPathIgnorePatterns ∧ containsSub p.data "/venv/".data := by
  refine ⟨by decide, ?_⟩
  obtain ⟨m, hm, hsub⟩ := h
  have hm' : m = "<rootDir>/venv/" ∨ m = "<rootDir>/src/venv/" := by
    have : modulePathIgnorePatterns = ["<rootDir>/venv/", "<rootDir>/src/venv/"] := rfl
    rw [this] at hm
    simpa using hm
  rcases hm' with rfl | rfl
  · rw [replaceRootDir_venv] at hsub
    exact List.IsInfix.trans (List.suffix_append _ _).isInfix hsub
  · rw [replaceRootDir_src_venv] at hsub
    have h1 : "/venv/".data <:+ r.data ++ "/src/venv/".data :=
      (show "/venv/".data <:+ "/src/venv/".data by decide).trans (List.suffix_append _ _)
    exact List.IsInfix.trans h1.isInfix hsub

theorem module_ignore_implies_test_ignore_witness :
    (∃ m ∈ modulePathIgnorePatterns,
      containsSub "/a/src/venv/b".data (replaceRootDir "/a".data m.data)) ∧
    ("/venv/" ∈ testPathIgnorePatterns ∧ containsSub "/a/src/venv/b".data "/venv/".data) :=
  have h : ∃ m ∈ modulePathIgnorePatterns,
      containsSub "/a/src/venv/b".data (replaceRootDir "/a".data m.data) :=
    ⟨"<rootDir>/src/venv/", by decide, by decide⟩
  ⟨h, module_ignore_implies_test_ignore "/a" "/a/src/venv/b" h⟩

theorem not_syntax_char {c : Char} (h : isSyntaxChar c = false) :
    c ≠ '^' ∧ c ≠ '$' ∧ c ≠ '.' ∧ c ≠ '*' ∧ c ≠ '+' ∧ c ≠ '?' := by
  simp [isSyntaxChar, syntaxChars] at h
  tauto

theorem atomOf_plain {c : Char} (h : isSyntaxChar c = false) :
    atomOf c = some (.chr c) := by
  have hc := not_syntax_char h
  simp [atomOf, h, hc.2.2.1]

theorem quantOf_plain {c : Char} (h : isSyntaxChar c = false) :
    quantOf c = none := by
  have hc := not_syntax_char h
  simp [quantOf, hc.2.2.2.1, hc.2.2.2.2.1, hc.2.2.2.2.2]

theorem metaFree_cons (c : Char) (rest : List Char) :
    metaFree (c :: rest) = true ↔ isSyntaxChar c = false ∧ metaFree rest = true := by
  simp [metaFree]

theorem parseRegex_metaFree (pat : List Char) (h : metaFree pat = true) :
    parseRegex pat = some (literalTerms pat) := by
  induction pat with
  | nil => rfl
  | cons c rest ih =>
    obtain ⟨hc, hrest⟩ := (metaFree_cons c rest).1 h
    have hne := not_syntax_char hc
    cases rest with
    | nil => simp [parseRegex, hne.1, hne.2.1, atomOf_plain hc, literalTerms]
    | cons q r =>
      have hq : isSyntaxChar q = false := ((metaFree_cons q r).1 hrest).1
      simp [parseRegex, hne.1, hne.2.1, atomOf_plain hc, quantOf_plain hq, ih hrest,
        literalTerms]

theorem matchTerms_literal (pat : List Char) :
    ∀ (atStart : Bool) (text : List Char),
      matchTerms (literalTerms pat) atStart text = pat.isPrefixOf text := by
  induction pat with
  | nil => intro atStart text; simp [literalTerms, matchTerms]
  | cons c rest ih =>
    intro atStart text
    cases text with
    | nil => simp [literalTerms, matchTerms, List.isPrefixOf]
    | cons d t =>
      have := ih false t
      simp only [literalTerms] at this
      simp [literalTerms, matchTerms, Atom.accepts, this, List.isPrefixOf]

theorem searchFrom_literal (pat : List Char) :
    ∀ (atStart : Bool) (text : List Char),
      searchFrom (literalTerms pat) atStart text = true ↔ pat <:+: text := by
  intro atStart text
  induction text generalizing atStart with
  | nil =>
    simp only [searchFrom, matchTerms_literal, List.isPrefixOf_iff_prefix]
    simp [List.prefix_nil, List.infix_nil]
  | cons d t ih =>
    simp only [searchFrom, matchTerms_literal, Bool.or_eq_true, List.isPrefixOf_iff_prefix,
      ih false, List.infix_cons_iff]

theorem regexTest_metaFree (pat path : List Char) (h : metaFree pat = true) :
    regexTest pat path = some (decide (containsSub path pat)) := by
  simp only [regexTest, parseRegex_metaFree pat h, Option.map_some', Option.some.injEq,
    containsSub]
  rw [Bool.eq_iff_iff, searchFrom_literal]
  simp

/-- C4: `testPathIgnorePatterns` is the ordered sequence
`/node_modules/`, `/venv/`, `/__pycache__/`, `/generated_code/`, so a path is
excluded from test discovery exactly when it contains one of these four
directory segments. -/
theorem testPathIgnorePatterns_value :
    config.get? "testPathIgnorePatterns" =
      some (.arr [.str "/node_modules/", .str "/venv/", .str "/__pycache__/",
        .str "/generated_code/"]) ∧
    testPathIgnorePatterns =
      ["/node_modules/", "/venv/", "/__pycache__/", "/generated_code/"] ∧
    ∀ path : String,
      (∃ e ∈ testPathIgnorePatterns, regexTest e.data path.data = some true) ↔
        (containsSub path.data "/node_modules/".data ∨
          containsSub path.data "/venv/".data ∨
          containsSub path.data "/__pycache__/".data ∨
          containsSub path.data "/generated_code/".data) := by
  refine ⟨rfl, rfl, fun path => ?_⟩
  have hv : testPathIgnorePatterns =
      ["/node_modules/", "/venv/", "/__pycache__/", "/generated_code/"] := rfl
  have h1 := regexTest_metaFree "/node_modules/".data path.data (by decide)
  have h2 := regexTest_metaFree "/venv/".data path.data (by decide)
  have h3 := regexTest_metaFree "/__pycache__/".data path.data (by decide)
  have h4 := regexTest_metaFree "/generated_code/".data path.data (by decide)
  simp only [hv, List.mem_cons, List.mem_singleton, List.not_mem_nil, or_false,
    exists_eq_or_imp, exists_eq_left, h1, h2, h3, h4, Option.some.injEq, decide_eq_true_eq]

theorem metaFree_append (a b : List Char) :
    metaFree (a ++ b) = true ↔ metaFree a = true ∧ metaFree b = true := by
  simp [metaFree, List.all_append]

theorem expandReplacement_plain (matched before after root : List Char)
    (h : metaFree root = true) :
    expandReplacement matched before after root = root := by
  induction root with
  | nil => rfl
  | cons c rest ih =>
    obtain ⟨hc, hrest⟩ := (metaFree_cons c rest).1 h
    have hne : c ≠ '$' := (not_syntax_char hc).2.1
    cases rest with
    | nil => rfl
    | cons d r =>
      have := ih hrest
      simp [expandReplacement, hne, this]

theorem substituteRootDir_venv (r : List Char) (h : metaFree r = true) :
    substituteRootDir r "<rootDir>/venv/".data = r ++ "/venv/".data := by
  have h1 : substituteRootDir r "<rootDir>/venv/".data =
      expandReplacement rootDirToken [] "/venv/".data r ++ "/venv/".data := rfl
  rw [h1, expandReplacement_plain _ _ _ _ h]

theorem substituteRootDir_src_venv (r : List Char) (h : metaFree r = true) :
    substituteRootDir r "<rootDir>/src/venv/".data = r ++ "/src/venv/".data := by
  have h1 : substituteRootDir r "<rootDir>/src/venv/".data =
      expandReplacement rootDirToken [] "/src/venv/".data r ++ "/src/venv/".data := rfl
  rw [h1, expandReplacement_plain _ _ _ _ h]

/-- C5, as stated, fails: under the root `/a+` the path `/a+/venv/x.js` lies
in the virtual environment under the root and is not skipped, and the path
`/aa/venv/x.js` lies outside it and is skipped. -/
theorem module_skip_differs_for_root_with_syntax_char :
    underVenv "/a+".data "/a+/venv/x.js".data ∧
    moduleIgnored "/a+".data "/a+/venv/x.js".data = false ∧
    ¬ underVenv "/a+".data "/aa/venv/x.js".data ∧
    moduleIgnored "/a+".data "/aa/venv/x.js".data = true := by
  decide

/-- C5, amended: `modulePathIgnorePatterns` is the ordered sequence
`<rootDir>/venv/`, `<rootDir>/src/venv/`; for a root directory `r` without
regular-expression syntax characters the tested patterns are `r/venv/` and
`r/src/venv/`, and a path is skipped in module resolution exactly when it
contains one of them. -/
theorem modulePathIgnorePatterns_skipped (r path : String)
    (hr : metaFree r.data = true) :
    config.get? "modulePathIgnorePatterns" =
      some (.arr [.str "<rootDir>/venv/", .str "<rootDir>/src/venv/"]) ∧
    modulePathIgnorePatterns = ["<rootDir>/venv/", "<rootDir>/src/venv/"] ∧
    modulePathIgnorePatterns.map (fun e => substituteRootDir r.data e.data) =
      [(r ++ "/venv/").data, (r ++ "/src/venv/").data] ∧
    (moduleIgnored r.data path.data = true ↔ underVenv r.data path.data) := by
  have hv : modulePathIgnorePatterns = ["<rootDir>/venv/", "<rootDir>/src/venv/"] := rfl
  have m1 : metaFree (r.data ++ "/venv/".data) = true :=
    (metaFree_append _ _).2 ⟨hr, by decide⟩
  have m2 : metaFree (r.data ++ "/src/venv/".data) = true :=
    (metaFree_append _ _).2 ⟨hr, by decide⟩
  refine ⟨rfl, rfl, ?_, ?_⟩
  · rw [hv, List.map_cons, List.map_cons, List.map_nil, substituteRootDir_venv _ hr,
      substituteRootDir_src_venv _ hr, String.data_append, String.data_append]
  · unfold moduleIgnored underVenv
    rw [hv, List.any_cons, List.any_cons, List.any_nil, substituteRootDir_venv _ hr,
      substituteRootDir_src_venv _ hr, regexTest_metaFree _ _ m1, regexTest_metaFree _ _ m2]
    simp

theorem modulePathIgnorePatterns_skipped_witness :
    metaFree "/a".data = true ∧
    (config.get? "modulePathIgnorePatterns" =
      some (.arr [.str "<rootDir>/venv/", .str "<rootDir>/src/venv/"]) ∧
    modulePathIgnorePatterns = ["<rootDir>/venv/", "<rootDir>/src/venv/"] ∧
    modulePathIgnorePatterns.map (fun e => substituteRootDir "/a".data e.data) =
      [("/a" ++ "/venv/").data, ("/a" ++ "/src/venv/").data] ∧
    (moduleIgnored "/a".data "/a/src/venv/b.js".data = true ↔
      underVenv "/a".data "/a/src/venv/b.js".data)) :=
  ⟨by decide, modulePathIgnorePatterns_skipped "/a" "/a/src/venv/b.js" (by decide)⟩

/-- C9, as stated, fails: the entry `<rootDir>/venv/` is free of syntax
characters, but under the root `/my.app` the pattern tested for it matches
the path `/myXapp/venv/x.js`, which contains neither the tested pattern nor
the entry. -/
theorem substituted_entry_not_literal :
    "<rootDir>/venv/" ∈ modulePathIgnorePatterns ∧
    metaFree "<rootDir>/venv/".data = true ∧
    regexTest (substituteRootDir "/my.app".data "<rootDir>/venv/".data)
      "/myXapp/venv/x.js".data = some true ∧
    ¬ containsSub "/myXapp/venv/x.js".data
      (substituteRootDir "/my.app".data "<rootDir>/venv/".data) ∧
    ¬ containsSub "/myXapp/venv/x.js".data "<rootDir>/venv/".data := by
  decide

/-- C9, amended: every entry of `testPathIgnorePatterns` and of
`modulePathIgnorePatterns` is free of the regular-expression syntax
characters `^ $ \ . * + ? ( ) [ ] { } |`, so testing a path against the
entry itself is substring containment; the pattern the tool tests, the entry
with `<rootDir>` replaced by the root, is the entry itself for the
`testPathIgnorePatterns` entries, and for every root without syntax
characters testing a path against it is substring containment as well. -/
theorem ignore_entries_literal_for_plain_root (e : String)
    (he : e ∈ testPathIgnorePatterns ++ modulePathIgnorePatterns) :
    (∀ c ∈ e.data, c ∉ syntaxChars) ∧
    (∀ path : String,
      regexTest e.data path.data = some (decide (containsSub path.data e.data))) ∧
    (e ∈ testPathIgnorePatterns → ∀ r : String, substituteRootDir r.data e.data = e.data) ∧
    (∀ r path : String, metaFree r.data = true →
      regexTest (substituteRootDir r.data e.data) path.data =
        some (decide (containsSub path.data (substituteRootDir r.data e.data)))) := by
  have hall : ∀ x ∈ testPathIgnorePatterns ++ modulePathIgnorePatterns,
      metaFree x.data = true := by
    decide
  have hm := hall e he
  have hcases : e = "/node_modules/" ∨ e = "/venv/" ∨ e = "/__pycache__/" ∨
      e = "/generated_code/" ∨ e = "<rootDir>/venv/" ∨ e = "<rootDir>/src/venv/" := by
    have hl : testPathIgnorePatterns ++ modulePathIgnorePatterns =
        ["/node_modules/", "/venv/", "/__pycache__/", "/generated_code/",
          "<rootDir>/venv/", "<rootDir>/src/venv/"] := rfl
    rw [hl] at he
    simpa using he
  have hsub : ∀ r : String, metaFree r.data = true →
      metaFree (substituteRootDir r.data e.data) = true := by
    intro r hr
    rcases hcases with rfl | rfl | rfl | rfl | rfl | rfl
    · exact hm
    · exact hm
    · exact hm
    · exact hm
    · rw [substituteRootDir_venv _ hr]
      exact (metaFree_append _ _).2 ⟨hr, by decide⟩
    · rw [substituteRootDir_src_venv _ hr]
      exact (metaFree_append _ _).2 ⟨hr, by decide⟩
  refine ⟨?_, fun path => regexTest_metaFree _ _ hm, ?_,
    fun r path hr => regexTest_metaFree _ _ (hsub r hr)⟩
  · intro c hc
    have := (List.all_eq_true.1 hm) c hc
    simpa [isSyntaxChar] using this
  · intro ht r
    have hl : testPathIgnorePatterns =
        ["/node_modules/", "/venv/", "/__pycache__/", "/generated_code/"] := rfl
    rw [hl] at ht
    have ht' : e = "/node_modules/" ∨ e = "/venv/" ∨ e = "/__pycache__/" ∨
        e = "/generated_code/" := by simpa using ht
    rcases ht' with rfl | rfl | rfl | rfl <;> rfl

theorem ignore_entries_literal_for_plain_root_witness :
    "<rootDir>/src/venv/" ∈ testPathIgnorePatterns ++ modulePathIgnorePatterns ∧
    ((∀ c ∈ "<rootDir>/src/venv/".data, c ∉ syntaxChars) ∧
    (∀ path : String,
      regexTest "<rootDir>/src/venv/".data path.data =
        some (decide (containsSub path.data "<rootDir>/src/venv/".data))) ∧
    ("<rootDir>/src/venv/" ∈ testPathIgnorePatterns →
      ∀ r : String, substituteRootDir r.data "<rootDir>/src/venv/".data =
        "<rootDir>/src/venv/".data) ∧
    (∀ r path : String, metaFree r.data = true →
      regexTest (substituteRootDir r.data "<rootDir>/src/venv/".data) path.data =
        some (decide (containsSub path.data
          (substituteRootDir r.data "<rootDir>/src/venv/".data))))) :=
  ⟨by decide, ignore_entries_literal_for_plain_root "<rootDir>/src/venv/" (by decide)⟩

/-! ## Test-file extensions -/

theorem globMatch_iff_mem_globLang (ts : List GlobTok) :
    ∀ s : List Char, globMatch ts s = true ↔ s ∈ globLang ts := by
  induction ts with
  | nil => intro s; cases s <;> simp [globMatch, globLang]
  | cons t ts ih =>
    intro s
    cases t with
    | lit c =>
      cases s with
      | nil => simp [globMatch, globLang]
      | cons d r =>
        simp only [globMatch, globLang, Bool.and_eq_true, ih, List.mem_map, List.cons.injEq,
          beq_iff_eq]
        constructor
        · rintro ⟨h1, h2⟩
          exact ⟨r, h2, h1, rfl⟩
        · rintro ⟨b, h2, rfl, rfl⟩
          exact ⟨rfl, h2⟩
    | cls cs =>
      cases s with
      | nil => simp [globMatch, globLang]
      | cons d r =>
        simp only [globMatch, globLang, Bool.and_eq_true, ih, List.mem_flatMap, List.mem_map,
          List.cons.injEq]
        constructor
        · rintro ⟨h1, h2⟩
          exact ⟨d, by simpa using h1, r, h2, rfl, rfl⟩
        · rintro ⟨a, h1, b, h2, rfl, rfl⟩
          exact ⟨by simpa using h1, h2⟩
    | opt g =>
      simp only [globMatch, globLang, Bool.or_eq_true, Bool.and_eq_true, ih, List.mem_append,
        List.mem_map, List.isPrefixOf_iff_prefix]
      constructor
      · rintro (h | ⟨h1, h2⟩)
        · exact Or.inl h
        · exact Or.inr ⟨_, h2, List.prefix_iff_eq_append.1 h1⟩
      · rintro (h | ⟨a, h1, rfl⟩)
        · exact Or.inl h
        · refine Or.inr ⟨List.prefix_append _ _, ?_⟩
          simpa using h1

/-- C10: the extension parts of the two `testMatch` globs are `.[jt]s?(x)`
and `.[tj]s?(x)`, and each of them matches exactly the strings `.js`, `.jsx`,
`.ts` and `.tsx`. -/
theorem testMatch_extensions :
    testMatch.map (fun p => extPart p.data) = [".[jt]s?(x)".data, ".[tj]s?(x)".data] ∧
    (∀ s : String, globTest ".[jt]s?(x)".data s.data = some true ↔ s ∈ jsExtensions) ∧
    (∀ s : String, globTest ".[tj]s?(x)".data s.data = some true ↔ s ∈ jsExtensions) := by
  have h1 : scanGlob .top ".[jt]s?(x)".data =
      some [.lit '.', .cls ['j', 't'], .lit 's', .opt ['x']] := by decide
  have h2 : scanGlob .top ".[tj]s?(x)".data =
      some [.lit '.', .cls ['t', 'j'], .lit 's', .opt ['x']] := by decide
  refine ⟨by decide, fun s => ?_, fun s => ?_⟩
  · simp only [globTest, h1, Option.map_some', Option.some.injEq, globMatch_iff_mem_globLang,
      jsExtensions]
    simp [globLang, String.ext_iff]
  · simp only [globTest, h2, Option.map_some', Option.some.injEq, globMatch_iff_mem_globLang,
      jsExtensions]
    simp [globLang, String.ext_iff]
    tauto

/-! ## Test-file selection -/

theorem Rx.nullable_iff (r : Rx) : r.nullable = true ↔ [] ∈ r.lang := by
  induction r with
  | none => simp [Rx.nullable, Rx.lang]
  | eps => simp [Rx.nullable, Rx.lang]
  | sym p => simp [Rx.nullable, Rx.lang]
  | alt a b iha ihb => simp [Rx.nullable, Rx.lang, iha, ihb]
  | seq a b iha ihb =>
    simp only [Rx.nullable, Rx.lang, Bool.and_eq_true, iha, ihb, Set.mem_setOf_eq]
    constructor
    · rintro ⟨h1, h2⟩
      exact ⟨[], [], h1, h2, rfl⟩
    · rintro ⟨u, v, hu, hv, huv⟩
      obtain ⟨rfl, rfl⟩ := List.append_eq_nil.1 huv.symm
      exact ⟨hu, hv⟩
  | star a _ =>
    simp only [Rx.nullable, Rx.lang, Set.mem_setOf_eq, true_iff]
    exact ⟨[], by simp, rfl⟩

theorem Rx.star_cons_mem {a : Rx} {c : Char} {w : List Char} :
    ∀ L : List (List Char), (∀ u ∈ L, u ∈ a.lang) → c :: w = L.flatten →
      ∃ u v, c :: u ∈ a.lang ∧ v ∈ (Rx.star a).lang ∧ w = u ++ v := by
  intro L
  induction L with
  | nil => intro _ h; simp at h
  | cons x L ih =>
    intro hall heq
    cases x with
    | nil =>
      exact ih (fun u hu => hall u (List.mem_cons_of_mem _ hu)) (by simpa using heq)
    | cons d x =>
      simp only [List.flatten_cons, List.cons_append, List.cons.injEq] at heq
      obtain ⟨rfl, rfl⟩ := heq
      exact ⟨x, L.flatten, hall _ (List.mem_cons_self _ _),
        ⟨L, fun u hu => hall u (List.mem_cons_of_mem _ hu), rfl⟩, rfl⟩

theorem Rx.deriv_lang (r : Rx) (c : Char) :
    ∀ w : List Char, w ∈ (r.deriv c).lang ↔ c :: w ∈ r.lang := by
  induction r with
  | none => intro w; simp [Rx.deriv, Rx.lang]
  | eps => intro w; simp [Rx.deriv, Rx.lang]
  | sym p =>
    intro w
    by_cases h : p c = true
    · simp only [Rx.deriv, h, if_true, Rx.lang, Set.mem_setOf_eq, Set.mem_singleton_iff,
        List.cons.injEq]
      constructor
      · rintro rfl; exact ⟨c, h, rfl, rfl⟩
      · rintro ⟨_, _, _, hw⟩; exact hw
    · simp only [Rx.deriv, h, Rx.lang, Set.mem_setOf_eq, List.cons.injEq]
      constructor
      · intro hw; exact absurd hw (by simp)
      · rintro ⟨d, hd, rfl, _⟩; exact absurd hd h
  | alt a b iha ihb => intro w; simp [Rx.deriv, Rx.lang, iha, ihb]
  | seq a b iha ihb =>
    intro w
    have key : c :: w ∈ (Rx.seq a b).lang ↔
        (∃ u v, c :: u ∈ a.lang ∧ v ∈ b.lang ∧ w = u ++ v) ∨
          ([] ∈ a.lang ∧ c :: w ∈ b.lang) := by
      simp only [Rx.lang, Set.mem_setOf_eq]
      constructor
      · rintro ⟨u, v, hu, hv, huv⟩
        cases u with
        | nil => exact Or.inr ⟨hu, by simpa using huv ▸ hv⟩
        | cons d u =>
          simp only [List.cons_append, List.cons.injEq] at huv
          obtain ⟨rfl, rfl⟩ := huv
          exact Or.inl ⟨u, v, hu, hv, rfl⟩
      · rintro (⟨u, v, hu, hv, rfl⟩ | ⟨h1, h2⟩)
        · exact ⟨c :: u, v, hu, hv, rfl⟩
        · exact ⟨[], c :: w, h1, h2, rfl⟩
    rw [key]
    by_cases hn : a.nullable = true
    · have hn' := (Rx.nullable_iff a).1 hn
      simp only [Rx.deriv, hn, if_true, Rx.lang, Set.mem_union, Set.mem_setOf_eq, iha, ihb,
        hn', true_and]
    · have hn' : [] ∉ a.lang := fun h => hn ((Rx.nullable_iff a).2 h)
      simp only [Rx.deriv, hn, Rx.lang, Set.mem_setOf_eq, iha, hn', false_and, or_false]
  | star a iha =>
    intro w
    simp only [Rx.deriv]
    constructor
    · rintro ⟨u, v, hu, ⟨L, hL, rfl⟩, rfl⟩
      refine ⟨(c :: u) :: L, ?_, by simp⟩
      intro x hx
      rcases List.mem_cons.1 hx with rfl | hx
      · exact (iha u).1 hu
      · exact hL x hx
    · rintro ⟨L, hL, heq⟩
      obtain ⟨u, v, hu, hv, rfl⟩ := Rx.star_cons_mem L hL heq
      exact ⟨u, v, (iha u).2 hu, hv, rfl⟩

theorem Rx.accepts_iff (r : Rx) (w : List Char) : r.accepts w = true ↔ w ∈ r.lang := by
  induction w generalizing r with
  | nil => simpa [Rx.accepts] using Rx.nullable_iff r
  | cons c w ih => rw [Rx.accepts, ih, Rx.deriv_lang]


theorem Rx.mem_eps (w : List Char) : w ∈ Rx.eps.lang ↔ w = [] :=
  Iff.rfl

theorem Rx.mem_sym (p : Char → Bool) (w : List Char) :
    w ∈ (Rx.sym p).lang ↔ ∃ c, p c = true ∧ w = [c] :=
  Iff.rfl

theorem Rx.mem_alt (a b : Rx) (w : List Char) :
    w ∈ (Rx.alt a b).lang ↔ w ∈ a.lang ∨ w ∈ b.lang :=
  Iff.rfl

theorem Rx.mem_seq (a b : Rx) (w : List Char) :
    w ∈ (Rx.seq a b).lang ↔ ∃ u v, u ∈ a.lang ∧ v ∈ b.lang ∧ w = u ++ v :=
  Iff.rfl

theorem mem_itemsRx_cons (t : Item) (ts : List Item) (w : List Char) :
    w ∈ (itemsRx (t :: ts)).lang ↔
      ∃ u v, u ∈ t.rx.lang ∧ v ∈ (itemsRx ts).lang ∧ w = u ++ v :=
  Iff.rfl

theorem mem_itemsRx_nil (w : List Char) : w ∈ (itemsRx []).lang ↔ w = [] :=
  Iff.rfl

theorem mem_lit (c : Char) (u : List Char) :
    u ∈ (Item.piece (.lit c)).rx.lang ↔ u = [c] := by
  simp [Item.rx, Piece.rx, Rx.lang]

theorem mem_cls (cs : List Char) (u : List Char) :
    u ∈ (Item.piece (.cls cs)).rx.lang ↔ ∃ c ∈ cs, u = [c] := by
  simp [Item.rx, Piece.rx, Rx.lang]

theorem mem_star_sym (p : Char → Bool) (u : List Char) :
    u ∈ (Rx.star (.sym p)).lang ↔ ∀ c ∈ u, p c = true := by
  constructor
  · rintro ⟨L, hL, rfl⟩ c hc
    obtain ⟨x, hx, hcx⟩ := List.mem_flatten.1 hc
    obtain ⟨d, hd, rfl⟩ := hL x hx
    rw [List.mem_singleton.1 hcx]
    exact hd
  · intro h
    refine ⟨u.map (fun c => [c]), ?_, ?_⟩
    · intro x hx
      obtain ⟨c, hc, rfl⟩ := List.mem_map.1 hx
      exact ⟨c, h c hc, rfl⟩
    · induction u with
      | nil => rfl
      | cons c u ih =>
        simp only [List.map_cons, List.flatten_cons, List.singleton_append, List.cons.injEq,
          true_and]
        exact ih (fun d hd => h d (List.mem_cons_of_mem _ hd))

theorem mem_star_piece (u : List Char) :
    u ∈ (Item.piece .star).rx.lang ↔ NoSep u := by
  simp only [Item.rx, Piece.rx, mem_star_sym, NoSep, nonSep, bne_iff_ne]

theorem mem_globstar (u : List Char) : u ∈ Item.globstar.rx.lang ↔ DirPrefix u := by
  have hall : ∀ x : List Char, x ∈ (Rx.star (.sym (fun _ => true))).lang :=
    fun x => (mem_star_sym _ x).2 (fun _ _ => rfl)
  simp only [Item.rx, DirPrefix, Rx.mem_alt, Rx.mem_seq, Rx.mem_eps, Rx.mem_sym]
  constructor
  · rintro (h | ⟨x, v, _, ⟨c, hc, rfl⟩, rfl⟩)
    · exact Or.inl h
    · have : c = '/' := by simpa using hc
      exact Or.inr ⟨x, by rw [this]⟩
  · rintro (h | ⟨x, rfl⟩)
    · exact Or.inl h
    · exact Or.inr ⟨x, ['/'], hall x, ⟨'/', by simp, rfl⟩, rfl⟩

theorem mem_litItems_append (s : List Char) (ts : List Item) (w : List Char) :
    w ∈ (itemsRx (litItems s ++ ts)).lang ↔ ∃ v, v ∈ (itemsRx ts).lang ∧ w = s ++ v := by
  induction s generalizing w with
  | nil => simp [litItems]
  | cons c s ih =>
    have ih' := fun w => ih w
    simp only [litItems, List.map_cons, List.cons_append] at ih' ⊢
    rw [mem_itemsRx_cons]
    simp only [mem_lit, ih']
    constructor
    · rintro ⟨u, v, rfl, ⟨v', hv', rfl⟩, rfl⟩
      exact ⟨v', hv', rfl⟩
    · rintro ⟨v, hv, rfl⟩
      exact ⟨[c], s ++ v, rfl, ⟨v, hv, rfl⟩, rfl⟩

theorem mem_opt_x (u : List Char) :
    u ∈ (Item.group .zeroOrOne [[.lit 'x']]).rx.lang ↔ u = [] ∨ u = ['x'] := by
  simp only [Item.rx, altsRx, piecesRx, Piece.rx, Rx.lang, Set.mem_union,
    Set.mem_singleton_iff, Set.mem_setOf_eq, Set.union_empty, beq_iff_eq]
  constructor
  · rintro (h | ⟨_, _, ⟨c, rfl, rfl⟩, rfl, rfl⟩)
    · exact Or.inl h
    · exact Or.inr rfl
  · rintro (h | rfl)
    · exact Or.inl h
    · exact Or.inr ⟨_, _, ⟨'x', rfl, rfl⟩, rfl, rfl⟩

theorem mem_ext_items (a b : Char) (w : List Char) :
    w ∈ (itemsRx [.piece (.lit '.'), .piece (.cls [a, b]), .piece (.lit 's'),
        .group .zeroOrOne [[.lit 'x']]]).lang ↔
      w = ['.', a, 's'] ∨ w = ['.', a, 's', 'x'] ∨ w = ['.', b, 's'] ∨
        w = ['.', b, 's', 'x'] := by
  simp only [mem_itemsRx_cons, mem_itemsRx_nil, mem_lit, mem_cls, mem_opt_x]
  constructor
  · rintro ⟨_, _, rfl, ⟨_, _, ⟨c, hc, rfl⟩, ⟨_, _, rfl, ⟨_, _, hx, rfl, rfl⟩, rfl⟩, rfl⟩, rfl⟩
    simp only [List.mem_cons, List.mem_singleton, List.not_mem_nil, or_false] at hc
    rcases hc with rfl | rfl <;> rcases hx with rfl | rfl <;> simp
  · rintro (rfl | rfl | rfl | rfl)
    · exact ⟨_, _, rfl, ⟨_, _, ⟨a, by simp, rfl⟩, ⟨_, _, rfl, ⟨[], _, Or.inl rfl, rfl, rfl⟩, rfl⟩,
        rfl⟩, rfl⟩
    · exact ⟨_, _, rfl, ⟨_, _, ⟨a, by simp, rfl⟩, ⟨_, _, rfl, ⟨['x'], _, Or.inr rfl, rfl, rfl⟩,
        rfl⟩, rfl⟩, rfl⟩
    · exact ⟨_, _, rfl, ⟨_, _, ⟨b, by simp, rfl⟩, ⟨_, _, rfl, ⟨[], _, Or.inl rfl, rfl, rfl⟩, rfl⟩,
        rfl⟩, rfl⟩
    · exact ⟨_, _, rfl, ⟨_, _, ⟨b, by simp, rfl⟩, ⟨_, _, rfl, ⟨['x'], _, Or.inr rfl, rfl, rfl⟩,
        rfl⟩, rfl⟩, rfl⟩

theorem jsExt_iff (w : List Char) :
    JsExt w ↔ w = ['.', 'j', 's'] ∨ w = ['.', 'j', 's', 'x'] ∨ w = ['.', 't', 's'] ∨
      w = ['.', 't', 's', 'x'] := by
  simp [JsExt, jsExtensions]

theorem mem_ext_jt (w : List Char) :
    w ∈ (itemsRx [.piece (.lit '.'), .piece (.cls ['j', 't']), .piece (.lit 's'),
        .group .zeroOrOne [[.lit 'x']]]).lang ↔ JsExt w := by
  rw [mem_ext_items, jsExt_iff]

theorem mem_ext_tj (w : List Char) :
    w ∈ (itemsRx [.piece (.lit '.'), .piece (.cls ['t', 'j']), .piece (.lit 's'),
        .group .zeroOrOne [[.lit 'x']]]).lang ↔ JsExt w := by
  rw [mem_ext_items, jsExt_iff]
  tauto

theorem mem_dotted_opt (u : List Char) :
    u ∈ (Item.group .zeroOrOne [[.star, .lit '.']]).rx.lang ↔ OptDotPrefix u := by
  have hs : ∀ n : List Char, n ∈ Piece.star.rx.lang ↔ NoSep n := mem_star_piece
  simp only [Item.rx, altsRx, piecesRx, Rx.mem_alt, Rx.mem_seq, Rx.mem_eps, hs, OptDotPrefix]
  constructor
  · rintro (h | h | h)
    · exact Or.inl h
    · obtain ⟨n, v, hn, ⟨d, e, hd, rfl, rfl⟩, rfl⟩ := h
      have hd' : d = ['.'] := by simpa [Piece.rx, Rx.lang] using hd
      exact Or.inr ⟨n, hn, by rw [hd']; simp⟩
    · exact absurd h (by simp [Rx.lang])
  · rintro (h | ⟨n, hn, rfl⟩)
    · exact Or.inl h
    · refine Or.inr (Or.inl ⟨n, ['.'], hn, ⟨['.'], [], ?_, rfl, rfl⟩, rfl⟩)
      simp [Piece.rx, Rx.lang]

theorem mem_piecesRx_lits (s w : List Char) :
    w ∈ (piecesRx (s.map Piece.lit)).lang ↔ w = s := by
  induction s generalizing w with
  | nil => exact Iff.rfl
  | cons c s ih =>
    simp only [List.map_cons, piecesRx, Rx.mem_seq, ih, Piece.rx, Rx.mem_sym, beq_iff_eq]
    constructor
    · rintro ⟨_, _, ⟨d, rfl, rfl⟩, rfl, rfl⟩
      rfl
    · rintro rfl
      exact ⟨[c], s, ⟨c, rfl, rfl⟩, rfl, rfl⟩

theorem mem_spec_or_test (w : List Char) :
    w ∈ (altsRx [[.lit 's', .lit 'p', .lit 'e', .lit 'c'],
        [.lit 't', .lit 'e', .lit 's', .lit 't']]).lang ↔
      w = "spec".data ∨ w = "test".data := by
  have h1 := mem_piecesRx_lits "spec".data w
  have h2 := mem_piecesRx_lits "test".data w
  simp only [altsRx, Rx.mem_alt]
  constructor
  · rintro (h | h | h)
    · exact Or.inl (h1.1 h)
    · exact Or.inr (h2.1 h)
    · exact absurd h (by simp [Rx.lang])
  · rintro (h | h)
    · exact Or.inl (h1.2 h)
    · exact Or.inr (Or.inl (h2.2 h))

theorem mem_spec_test_word (w : List Char) :
    w ∈ (Item.group .oneOrMore [[.lit 's', .lit 'p', .lit 'e', .lit 'c'],
        [.lit 't', .lit 'e', .lit 's', .lit 't']]).rx.lang ↔ SpecTestWord w := by
  simp only [Item.rx, Rx.mem_seq, SpecTestWord]
  constructor
  · rintro ⟨u, v, hu, ⟨L, hL, rfl⟩, rfl⟩
    refine ⟨u :: L, by simp, ?_, by simp⟩
    intro x hx
    rcases List.mem_cons.1 hx with rfl | hx
    · exact (mem_spec_or_test _).1 hu
    · exact (mem_spec_or_test _).1 (hL x hx)
  · rintro ⟨ws, hne, hall, rfl⟩
    cases ws with
    | nil => exact absurd rfl hne
    | cons u L =>
      refine ⟨u, L.flatten, (mem_spec_or_test _).2 (hall u (List.mem_cons_self _ _)),
        ⟨L, fun x hx => (mem_spec_or_test _).2 (hall x (List.mem_cons_of_mem _ hx)), rfl⟩, ?_⟩
      simp

theorem selects_tests_dir (p : List Char) :
    globSelects "**/__tests__/**/*.[jt]s?(x)".data p = some true ↔ UnderTestsDir p := by
  have hp : parseGlob .top "**/__tests__/**/*.[jt]s?(x)".data =
      some (.globstar :: (litItems "__tests__/".data ++
        [.globstar, .piece .star, .piece (.lit '.'), .piece (.cls ['j', 't']),
          .piece (.lit 's'), .group .zeroOrOne [[.lit 'x']]])) := by
    decide
  have hcons := mem_itemsRx_cons
  simp only [globSelects, hp, Option.map_some', Option.some.injEq, Rx.accepts_iff]
  rw [hcons]
  simp only [mem_globstar, mem_litItems_append]
  constructor
  · rintro ⟨a, _, ha, ⟨v, hv, rfl⟩, rfl⟩
    rw [hcons] at hv
    obtain ⟨b, v', hb, hv', rfl⟩ := hv
    rw [hcons] at hv'
    obtain ⟨n, e, hn, he, rfl⟩ := hv'
    exact ⟨a, b, n, e, ha, (mem_globstar b).1 hb, (mem_star_piece n).1 hn,
      (mem_ext_jt e).1 he, rfl⟩
  · rintro ⟨a, b, n, e, ha, hb, hn, he, rfl⟩
    refine ⟨a, _, ha, ⟨b ++ (n ++ e), ?_, rfl⟩, rfl⟩
    rw [hcons]
    refine ⟨b, _, (mem_globstar b).2 hb, ?_, rfl⟩
    rw [hcons]
    exact ⟨n, e, (mem_star_piece n).2 hn, (mem_ext_jt e).2 he, rfl⟩

theorem selects_spec_test (p : List Char) :
    globSelects "**/?(*.)+(spec|test).[tj]s?(x)".data p = some true ↔ SpecOrTestName p := by
  have hp : parseGlob .top "**/?(*.)+(spec|test).[tj]s?(x)".data =
      some [.globstar, .group .zeroOrOne [[.star, .lit '.']],
        .group .oneOrMore [[.lit 's', .lit 'p', .lit 'e', .lit 'c'],
          [.lit 't', .lit 'e', .lit 's', .lit 't']],
        .piece (.lit '.'), .piece (.cls ['t', 'j']), .piece (.lit 's'),
        .group .zeroOrOne [[.lit 'x']]] := by
    decide
  have hcons := mem_itemsRx_cons
  simp only [globSelects, hp, Option.map_some', Option.some.injEq, Rx.accepts_iff]
  rw [hcons]
  simp only [mem_globstar]
  constructor
  · rintro ⟨a, v, ha, hv, rfl⟩
    rw [hcons] at hv
    obtain ⟨u, v', hu, hv', rfl⟩ := hv
    rw [hcons] at hv'
    obtain ⟨w, e, hw, he, rfl⟩ := hv'
    exact ⟨a, u, w, e, ha, (mem_dotted_opt u).1 hu, (mem_spec_test_word w).1 hw,
      (mem_ext_tj e).1 he, rfl⟩
  · rintro ⟨a, u, w, e, ha, hu, hw, he, rfl⟩
    refine ⟨a, _, ha, ?_, rfl⟩
    rw [hcons]
    refine ⟨u, _, (mem_dotted_opt u).2 hu, ?_, rfl⟩
    rw [hcons]
    exact ⟨w, e, (mem_spec_test_word w).2 hw, (mem_ext_tj e).2 he, rfl⟩

/-- C6, as stated, fails: the file `src/spec.tsx` is identified as a test
file, and so is `src/a.testspec.js`, though neither is under a `__tests__`
directory nor named `*.spec` or `*.test`. -/
theorem spec_file_selected_outside_wording :
    isTestFile "src/spec.tsx".data = true ∧
    wordingSelects "src/spec.tsx".data = false ∧
    isTestFile "src/a.testspec.js".data = true ∧
    wordingSelects "src/a.testspec.js".data = false := by
  decide

/-- C6, amended: `testMatch` is the ordered sequence of the two globs
`**/__tests__/**/*.[jt]s?(x)` and `**/?(*.)+(spec|test).[tj]s?(x)`, and a
file is identified as a test file exactly when it lies below a `__tests__`
directory and ends in `.js`, `.jsx`, `.ts` or `.tsx`, or its name is an
optional dot-terminated prefix followed by one or more repetitions of `spec`
and `test` and one of these extensions. -/
theorem testMatch_selection (path : String) :
    config.get? "testMatch" =
      some (.arr [.str "**/__tests__/**/*.[jt]s?(x)",
        .str "**/?(*.)+(spec|test).[tj]s?(x)"]) ∧
    testMatch = ["**/__tests__/**/*.[jt]s?(x)", "**/?(*.)+(spec|test).[tj]s?(x)"] ∧
    (isTestFile path.data = true ↔
      UnderTestsDir path.data ∨ SpecOrTestName path.data) := by
  have hv : testMatch =
      ["**/__tests__/**/*.[jt]s?(x)", "**/?(*.)+(spec|test).[tj]s?(x)"] := rfl
  refine ⟨rfl, rfl, ?_⟩
  unfold isTestFile
  rw [hv, List.any_cons, List.any_cons, List.any_nil, Bool.or_false, Bool.or_eq_true,
    beq_iff_eq, beq_iff_eq, selects_tests_dir, selects_spec_test]

end JestConfig
